import Mathlib

/-!
Verification of the top-k-RSO selection/scoring core.

Shallow embedding of `src/alg/HPF_eq.py`, `src/alg/biased_sampling.py` and
`src/alg/extension_sampling.py`.  Python floats are modelled as rationals
(the spec requires only formula equivalence, not float rounding).  Python
exceptions (`ZeroDivisionError`, `KeyError`, `ValueError`) are modelled by
an `Except PyErr` result.  Python dicts keyed by point/cell ids are
modelled as functions or association lists; the module-global `random`
generator is modelled as an ambient stream `g : ℕ → ℕ` of draws that the
samplers consume.
-/

namespace RSO

/-- A data point: `models.Place` (not under `src/`; per the spec a Place is
an immutable record with a unique id, coordinates and an intrinsic weight
`rF`.  Coordinates are irrelevant to the scoring/allocation claims and are
omitted). -/
structure Place where
  id : ℕ
  rF : ℚ
deriving DecidableEq, Repr

/-- Python exceptions that the embedded code can raise. -/
inductive PyErr where
  | zeroDivisionError
  | keyError
  | valueError
deriving DecidableEq, Repr

/-- Python `x or y` for `x` an optional float (`dict.get` result) and `y` a
float: returns the value of `x` when it is present and truthy (nonzero),
otherwise `y`. -/
def pyOr (x : Option ℚ) (y : ℚ) : ℚ :=
  match x with
  | some v => if v = 0 then y else v
  | none => y

/-- `spacial_proximity(sS, pi, pj)` from `HPF_eq.py`:
`sS.get((pi.id, pj.id)) or sS.get((pj.id, pi.id)) or 0.0`. -/
def spacial_proximity (sS : ℕ × ℕ → Option ℚ) (pi pj : Place) : ℚ :=
  pyOr (sS (pi.id, pj.id)) (pyOr (sS (pj.id, pi.id)) 0)

/-- The spec's symmetric-lookup description (§4.2): `proximity(i,j) =
pairProximity[(i,j)] if present else pairProximity[(j,i)] if present
else 0`.  Stated from the spec's words, to be compared with the source's
`spacial_proximity`. -/
def symmetric_lookup_spec (sS : ℕ × ℕ → Option ℚ) (i j : ℕ) : ℚ :=
  match sS (i, j) with
  | some v => v
  | none =>
    match sS (j, i) with
    | some v => v
    | none => 0

/-- The `psR` dictionary of `HPFR`/`HPFR_div`: starting from
`{p.id: 0.0 for p in R}`, the double loop
`for pi in R: for pj in R: if pi.id != pj.id: psR[pi.id] += spacial_proximity(sS, pi, pj)`.
The dict is modelled as a function from ids (reads only ever happen at ids
of members of `R`, where the Python dict is defined). -/
def psR_loop (sS : ℕ × ℕ → Option ℚ) (R : List Place) : ℕ → ℚ :=
  R.foldl
    (fun psR pi =>
      R.foldl
        (fun psR' pj =>
          if pi.id ≠ pj.id then
            Function.update psR' pi.id (psR' pi.id + spacial_proximity sS pi pj)
          else psR')
        psR)
    (fun _ => 0)

/-- `HPFR(R, baseline_psS, baseline_sS, W, K)` from `HPF_eq.py`: computes
`psR`, then
`score = (Σ p.rF)/(2k) + (Σ baseline_psS[p.id] - W*psR[p.id])/(2k(K-W))`
and returns `(score, Σ baseline_psS[p.id], Σ W*psR[p.id])`.
Python raises `ZeroDivisionError` when `2*k = 0` or `2*k*(K-W) = 0`,
i.e. exactly when `k = 0` or `K = W`. -/
def HPFR (R : List Place) (baseline_psS : ℕ → ℚ) (baseline_sS : ℕ × ℕ → Option ℚ)
    (W K : ℚ) : Except PyErr (ℚ × ℚ × ℚ) :=
  let psR := psR_loop baseline_sS R
  let k : ℚ := R.length
  if R.length = 0 ∨ K - W = 0 then .error .zeroDivisionError
  else
    .ok ((R.map Place.rF).sum / (2 * k)
          + (R.map (fun p => baseline_psS p.id - W * psR p.id)).sum / (2 * k * (K - W)),
         (R.map (fun p => baseline_psS p.id)).sum,
         (R.map (fun p => W * psR p.id)).sum)

/-- `HPFR_div(R, baseline_psS, baseline_sS, W, K)` from `HPF_eq.py`:
same `psR` computation, but returns the relevance term and the
proximity-penalty term un-normalized and separately:
`(score_rf, score_ps, Σ baseline_psS[p.id], Σ W*psR[p.id])`.
It performs no division (the parameters `W`, `K` appear only inside the
products), so it never raises. -/
def HPFR_div (R : List Place) (baseline_psS : ℕ → ℚ) (baseline_sS : ℕ × ℕ → Option ℚ)
    (W : ℚ) (_K : ℚ) : ℚ × ℚ × ℚ × ℚ :=
  let psR := psR_loop baseline_sS R
  ((R.map Place.rF).sum,
   (R.map (fun p => baseline_psS p.id - W * psR p.id)).sum,
   (R.map (fun p => baseline_psS p.id)).sum,
   (R.map (fun p => W * psR p.id)).sum)

/-- `HPF(pi, pj, W, psS, sS, k)` from `HPF_eq.py`: `K = W * k`, then
`(K - k)*(pi.rF - pj.rF)/(k - 1) + (psS[pi.id] + psS[pj.id])/(k - 1) - 2*W*sS[(pi.id, pj.id)]`.
Python evaluates left to right: with `k = 1` the first division raises
`ZeroDivisionError` before the pair table is read; otherwise the direct
one-directional index `sS[(pi.id, pj.id)]` raises `KeyError` when the key
is absent. -/
def HPF (pi pj : Place) (W : ℚ) (psS : ℕ → ℚ) (sS : ℕ × ℕ → Option ℚ)
    (k : ℕ) : Except PyErr ℚ :=
  let K := W * (k : ℚ)
  if k = 1 then .error .zeroDivisionError
  else
    match sS (pi.id, pj.id) with
    | none => .error .keyError
    | some v =>
      .ok ((K - k) * (pi.rF - pj.rF) / ((k : ℚ) - 1)
            + (psS pi.id + psS pj.id) / ((k : ℚ) - 1) - 2 * W * v)

/-- The claim's `intraProximity[i] = Σ_{j ∈ R, j ≠ i} proximity(i,j)` over
the selected subset, written as a direct filtered sum (to be compared with
the dict-and-double-loop computation `psR_loop` of the source). -/
def intraProximity (sS : ℕ × ℕ → Option ℚ) (R : List Place) (p : Place) : ℚ :=
  ((R.filter (fun q => q.id ≠ p.id)).map (fun q => spacial_proximity sS p q)).sum

/-- Modelled from the spec: the Python samplers call the module-global
`random.sample(population, n)` (CPython's generator is hidden module
state).  The global generator is modelled as an ambient stream
`g : ℕ → ℕ` of draws together with a cursor `step`; each selection step
consumes one draw and picks the element at index `g step % |pool|` of the
remaining pool, removing it (sampling without replacement).  Exactly `n`
draws are consumed when `n ≤ |pool|`. -/
def sample_aux (g : ℕ → ℕ) (step : ℕ) (pool : List Place) : ℕ → List Place
  | 0 => []
  | n + 1 =>
    if h : pool = [] then []
    else
      let i := g step % pool.length
      pool.get ⟨i, Nat.mod_lt _ (List.length_pos.mpr h)⟩
        :: sample_aux g (step + 1) (pool.eraseIdx i) n

/-- Python `random.sample(S, k)`: raises `ValueError` when `k` exceeds the
population size, otherwise returns `k` distinct elements. -/
def random_sample (g : ℕ → ℕ) (S : List Place) (k : ℕ) : Option (List Place) :=
  if S.length < k then none else some (sample_aux g 0 S k)

/-- `select_random(S, k)` from `biased_sampling.py`: just
`random.sample(S, k)` (the wall-clock timing output is omitted).  The
ambient stream `g` models the module-global generator; it is *not* a
parameter of the Python function. -/
def select_random (g : ℕ → ℕ) (S : List Place) (k : ℕ) : Option (List Place) :=
  random_sample g S k

/-- Modelled from the spec: a non-empty grid cell as produced by
`SquareGrid(S, G).get_full_cells()` (`models.SquareGrid` is not under
`src/`).  Per spec §3/§4.3 a cell has an integer-pair id and an ordered
member list; the partition facts (distinct ids, members partition `S`)
are taken as hypotheses where needed. -/
structure Cell where
  id : ℕ × ℕ
  places : List Place
deriving DecidableEq, Repr

/-- `c.size()`: the number of members of a cell. -/
def cellSize (c : Cell) : ℕ := c.places.length

/-- The shared largest-remainder allocation of `grid_sampling` and
`grid_weighted_sampling` (`extension_sampling.py`), over the per-cell
`ideal` values: integer part `⌊ideal⌋` per cell, then
`k_remaining = k - Σ⌊ideal⌋` extra units to the cells with the largest
fractional remainders, `remainders.sort(key=..., reverse=True)` being a
stable descending sort (Python `list.sort` is stable; `insertionSort`
with `b.2 ≤ a.2` places an earlier element before later ones of equal
remainder, which is the unique stable result).  Python distributes
`min(k_remaining, len(remainders))` units; the cell ids are dict keys,
hence distinct, so each cell gains at most one unit. -/
def lrm_remainders {α : Type} (ideals : List (α × ℚ)) : List (α × ℚ) :=
  ideals.map (fun c => (c.1, c.2 - (⌊c.2⌋ : ℚ)))

/-- The comparison used by `remainders.sort(key=lambda x: x[1], reverse=True)`:
entry `a` may come before entry `b` when `a`'s remainder is at least
`b`'s.  Python's sort is stable, and insertion sort with this relation
places an earlier element before later ones of equal remainder, which is
the unique stable descending result. -/
def remGe {α : Type} (a b : α × ℚ) : Prop := b.2 ≤ a.2

instance {α : Type} : DecidableRel (remGe (α := α)) :=
  fun a b => inferInstanceAs (Decidable (b.2 ≤ a.2))

instance {α : Type} : IsTotal (α × ℚ) remGe := ⟨fun a b => le_total b.2 a.2⟩

instance {α : Type} : IsTrans (α × ℚ) remGe := ⟨fun _ _ _ h1 h2 => le_trans h2 h1⟩

/-- `k_remaining = k - total_k_allocated` (the floors having been summed
cell by cell). -/
def lrm_kRem {α : Type} (k : ℕ) (ideals : List (α × ℚ)) : ℤ :=
  (k : ℤ) - (ideals.map (fun c => ⌊c.2⌋)).sum

/-- The ids of the cells receiving one extra unit: the first
`min(k_remaining, len(remainders))` entries of the stable descending sort
of the remainders. -/
def lrm_bumped {α : Type} (k : ℕ) (ideals : List (α × ℚ)) : List α :=
  let sorted : List (α × ℚ) := (lrm_remainders ideals).insertionSort remGe
  (sorted.take (min (lrm_kRem k ideals) (sorted.length : ℤ)).toNat).map Prod.fst

/-- The final integer quota of one cell: its floor plus the extra unit
when the cell is among the bumped ones. -/
def lrm_quota {α : Type} [DecidableEq α] (k : ℕ) (ideals : List (α × ℚ))
    (c : α × ℚ) : ℤ :=
  ⌊c.2⌋ + if c.1 ∈ lrm_bumped k ideals then 1 else 0

def lrm_core {α : Type} [DecidableEq α] (k : ℕ) (ideals : List (α × ℚ)) :
    List (α × ℤ) :=
  ideals.map (fun c => (c.1, lrm_quota k ideals c))

/-- The allocation stage of `grid_sampling` (`extension_sampling.py`
lines 61-83): cells of size 0 are skipped, `ideal = k * (c.size() / K)`
with `K = len(S)`, then floors plus largest-remainder distribution. -/
def grid_alloc (k K : ℕ) (CL : List Cell) : List ((ℕ × ℕ) × ℤ) :=
  lrm_core k
    ((CL.filter (fun c => cellSize c ≠ 0)).map
      (fun c => (c.id, (k : ℚ) * ((cellSize c : ℚ) / (K : ℚ)))))

/-- The score computation and allocation stage of `grid_weighted_sampling`
(`extension_sampling.py` lines 154-197): per-cell score
`count * Σ weights`, early degenerate return (`none`) when the total
score is 0, otherwise `ideal = k * (score / total_grid_score)` and the
same largest-remainder distribution. -/
def grid_weighted_alloc (k : ℕ) (CL : List Cell) :
    Option (List ((ℕ × ℕ) × ℤ)) :=
  let cell_scores := (CL.filter (fun c => cellSize c ≠ 0)).map
    (fun c => (c.id, (cellSize c : ℚ) * (c.places.map Place.rF).sum))
  let total_grid_score := (cell_scores.map Prod.snd).sum
  if total_grid_score = 0 then none
  else some (lrm_core k
    (cell_scores.map (fun s => (s.1, (k : ℚ) * (s.2 / total_grid_score)))))

/-- The per-cell random-selection loop of the grid samplers
(`extension_sampling.py` lines 87-94 and 200-206): iterate `k_alloc` in
insertion order; for each positive quota look the cell up
(`cell_map[cell_id]`; the ids come from `CL`, so the lookup cannot fail —
a failed `find?` is skipped for totality), clamp to
`actual_pick = min(num_to_pick, cell.size())` and draw that many members
without replacement, threading the ambient random stream. -/
def draw_cells (g : ℕ → ℕ) (kalloc : List ((ℕ × ℕ) × ℤ)) (CL : List Cell) :
    List Place :=
  (kalloc.foldl
    (fun (acc : List Place × ℕ) qc =>
      if (0 : ℤ) < qc.2 then
        match CL.find? (fun c => c.id = qc.1) with
        | some cell =>
          let n : ℕ := min (Int.toNat qc.2) (cellSize cell)
          if 0 < n then (acc.1 ++ sample_aux g acc.2 cell.places n, acc.2 + n)
          else acc
        | none => acc
      else acc)
    ([], 0)).1

/-- `grid_sampling(S, k, W, G, optimal_psS, optimal_sS)` from
`extension_sampling.py`: with `K = len(S)`, returns the 0-tuple
`([], 0.0, 0.0, 0.0, ...)` early when `K == 0 or k == 0`; otherwise
allocates, draws per cell, raises `ValueError` when the drawn `R` is
empty, and finally scores `R` with `HPFR`.  The grid construction
`SquareGrid(S, G)` is not under `src/`, so the non-empty cell list `CL`
is taken as an input; timing fields and `cell_stats` are omitted from the
result. -/
def grid_sampling (g : ℕ → ℕ) (S : List Place) (k : ℕ) (W : ℚ) (CL : List Cell)
    (optimal_psS : ℕ → ℚ) (optimal_sS : ℕ × ℕ → Option ℚ) :
    Except PyErr (List Place × ℚ × ℚ × ℚ) :=
  let K := S.length
  if K = 0 ∨ k = 0 then .ok ([], 0, 0, 0)
  else
    let R := draw_cells g (grid_alloc k K CL) CL
    if R = [] then .error .valueError
    else
      match HPFR R optimal_psS optimal_sS W (K : ℚ) with
      | .error e => .error e
      | .ok (score, sumPsS, sumPsR) => .ok (R, score, sumPsS, sumPsR)

/-- `grid_weighted_sampling(S, k, W, G, optimal_psS, optimal_sS)` from
`extension_sampling.py`: with `K = len(S)`, returns `([], 0.0, 0.0, 0.0, …)`
early when `K == 0 or k == 0`; computes the per-cell scores and returns
the same empty tuple when the total score is 0 (`grid_weighted_alloc`'s
`none` branch, e.g. all weights zero); otherwise allocates, draws per
cell, raises `ValueError` when the drawn `R` is empty, and scores `R`
with `HPFR`.  As for `grid_sampling`, the cell list `CL` stands for the
`SquareGrid` output and timing fields and `cell_stats` are omitted. -/
def grid_weighted_sampling (g : ℕ → ℕ) (S : List Place) (k : ℕ) (W : ℚ) (CL : List Cell)
    (optimal_psS : ℕ → ℚ) (optimal_sS : ℕ × ℕ → Option ℚ) :
    Except PyErr (List Place × ℚ × ℚ × ℚ) :=
  let K := S.length
  if K = 0 ∨ k = 0 then .ok ([], 0, 0, 0)
  else
    match grid_weighted_alloc k CL with
    | none => .ok ([], 0, 0, 0)
    | some kalloc =>
      let R := draw_cells g kalloc CL
      if R = [] then .error .valueError
      else
        match HPFR R optimal_psS optimal_sS W (K : ℚ) with
        | .error e => .error e
        | .ok (score, sumPsS, sumPsR) => .ok (R, score, sumPsS, sumPsR)

/-! ### The `psR` dictionary loop computes the intra-subset proximity sums -/

/-- The inner loop of the `psR` computation: folding the updates for a
fixed `pi` over a list adds, at key `pi.id`, the sum of proximities to the
members with a different id. -/
theorem psR_inner_eq (sS : ℕ × ℕ → Option ℚ) (pi : Place) :
    ∀ (L : List Place) (f : ℕ → ℚ),
      L.foldl
        (fun psR' pj =>
          if pi.id ≠ pj.id then
            Function.update psR' pi.id (psR' pi.id + spacial_proximity sS pi pj)
          else psR')
        f
      = Function.update f pi.id
          (f pi.id + ((L.filter (fun q => pi.id ≠ q.id)).map
              (fun q => spacial_proximity sS pi q)).sum) := by
  intro L
  induction L with
  | nil => intro f; simp [Function.update_eq_self]
  | cons pj L ih =>
    intro f
    by_cases h : pi.id = pj.id
    · simp only [List.foldl_cons, if_neg (not_not_intro h)]
      rw [ih f]
      have : (List.filter (fun q => decide (pi.id ≠ q.id)) (pj :: L))
          = List.filter (fun q => decide (pi.id ≠ q.id)) L := by
        simp [List.filter_cons, h]
      rw [this]
    · simp only [List.foldl_cons, if_pos h]
      rw [ih]
      rw [Function.update_idem, Function.update_same]
      have : (List.filter (fun q => decide (pi.id ≠ q.id)) (pj :: L))
          = pj :: List.filter (fun q => decide (pi.id ≠ q.id)) L := by
        simp [List.filter_cons, h]
      rw [this, List.map_cons, List.sum_cons, add_assoc]

/-- The outer loop of the `psR` computation: the final dict value at key
`x` is the initial value plus one inner-loop contribution for every outer
member whose id is `x`. -/
theorem psR_outer_eq (sS : ℕ × ℕ → Option ℚ) (R : List Place) :
    ∀ (L : List Place) (f : ℕ → ℚ) (x : ℕ),
      (L.foldl
        (fun psR pi =>
          R.foldl
            (fun psR' pj =>
              if pi.id ≠ pj.id then
                Function.update psR' pi.id (psR' pi.id + spacial_proximity sS pi pj)
              else psR')
            psR)
        f) x
      = f x + ((L.filter (fun pi => pi.id = x)).map
          (fun pi => ((R.filter (fun q => pi.id ≠ q.id)).map
            (fun q => spacial_proximity sS pi q)).sum)).sum := by
  intro L
  induction L with
  | nil => intro f x; simp
  | cons pi L ih =>
    intro f x
    rw [List.foldl_cons, ih, psR_inner_eq]
    by_cases h : pi.id = x
    · subst h
      rw [List.filter_cons_of_pos (by simp), Function.update_same]
      simp [add_assoc]
    · rw [List.filter_cons_of_neg (by simpa using h), Function.update_noteq]
      exact fun hc => h hc.symm

/-- In a list of places with pairwise-distinct ids, filtering for the id
of a member isolates exactly that member. -/
theorem filter_id_eq_single :
    ∀ (l : List Place) (p : Place), (l.map Place.id).Nodup → p ∈ l →
      l.filter (fun q => q.id = p.id) = [p] := by
  intro l
  induction l with
  | nil => intro p _ hp; cases hp
  | cons a t ih =>
    intro p hnd hp
    rw [List.map_cons, List.nodup_cons] at hnd
    rcases List.mem_cons.mp hp with rfl | hpt
    · rw [List.filter_cons_of_pos (by simp)]
      have : t.filter (fun q => decide (q.id = p.id)) = [] := by
        apply List.filter_eq_nil_iff.mpr
        intro q hq hdec
        exact hnd.1 (of_decide_eq_true hdec ▸ List.mem_map_of_mem Place.id hq)
      rw [this]
    · have hne : a.id ≠ p.id := by
        intro he
        exact hnd.1 (he ▸ List.mem_map_of_mem Place.id hpt)
      rw [List.filter_cons_of_neg (by simpa using hne)]
      exact ih p hnd.2 hpt

/-- For a subset with distinct ids, the dict-loop `psR` value at a
member's id is the claim's `intraProximity` filtered sum. -/
theorem psR_loop_eq_intra (sS : ℕ × ℕ → Option ℚ) (R : List Place) (p : Place)
    (hnd : (R.map Place.id).Nodup) (hp : p ∈ R) :
    psR_loop sS R p.id = intraProximity sS R p := by
  unfold psR_loop intraProximity
  rw [psR_outer_eq]
  rw [filter_id_eq_single R p hnd hp]
  have hfe : R.filter (fun q => decide (p.id ≠ q.id))
      = R.filter (fun q => decide (q.id ≠ p.id)) := by
    apply List.filter_congr
    intro q _
    simp [ne_comm]
  simp only [List.map_cons, List.map_nil, List.sum_cons, List.sum_nil, add_zero, zero_add]
  rw [hfe]

/-- C1.  For every non-empty subset `R` with pairwise-distinct ids and
`K ≠ W`, `HPFR` returns the score
`(Σ rF)/(2k) + (Σ psS[i] - W·intra_i)/(2k(K-W))` with
`intra_i = Σ_{j∈R, j≠i} proximity(i,j)` computed over `R` through the
symmetric lookup, plus the side outputs `Σ psS[i]` and `Σ W·intra_i`. -/
theorem C1_HPFR_aggregate_score (R : List Place) (psS : ℕ → ℚ)
    (sS : ℕ × ℕ → Option ℚ) (W K : ℚ)
    (hne : R ≠ []) (hnd : (R.map Place.id).Nodup) (hKW : K ≠ W) :
    HPFR R psS sS W K = .ok
      ((R.map Place.rF).sum / (2 * (R.length : ℚ))
        + (R.map (fun p => psS p.id - W * intraProximity sS R p)).sum
          / (2 * (R.length : ℚ) * (K - W)),
       (R.map (fun p => psS p.id)).sum,
       (R.map (fun p => W * intraProximity sS R p)).sum) := by
  unfold HPFR
  rw [if_neg]
  · have h1 : R.map (fun p => psS p.id - W * psR_loop sS R p.id)
        = R.map (fun p => psS p.id - W * intraProximity sS R p) :=
      List.map_congr_left fun p hp => by rw [psR_loop_eq_intra sS R p hnd hp]
    have h2 : R.map (fun p => W * psR_loop sS R p.id)
        = R.map (fun p => W * intraProximity sS R p) :=
      List.map_congr_left fun p hp => by rw [psR_loop_eq_intra sS R p hnd hp]
    rw [h1, h2]
  · push_neg
    exact ⟨fun h => hne (List.length_eq_zero.mp h), sub_ne_zero.mpr hKW⟩

/-- Witness for C1 on a concrete two-point subset whose pair proximity is
stored only under the reversed key. -/
theorem C1_HPFR_aggregate_score_witness :
    HPFR [⟨0, 1⟩, ⟨1, 2⟩] (fun i => (i : ℚ)) (fun pr => if pr = (1, 0) then some (1/3) else none) 2 4
      = .ok
      (([⟨0, 1⟩, ⟨1, 2⟩].map Place.rF).sum / (2 * (([⟨0, 1⟩, ⟨1, 2⟩] : List Place).length : ℚ))
        + ([(⟨0, 1⟩ : Place), ⟨1, 2⟩].map (fun p => (p.id : ℚ)
            - 2 * intraProximity (fun pr => if pr = (1, 0) then some (1/3) else none) [⟨0, 1⟩, ⟨1, 2⟩] p)).sum
          / (2 * (([⟨0, 1⟩, ⟨1, 2⟩] : List Place).length : ℚ) * (4 - 2)),
       ([(⟨0, 1⟩ : Place), ⟨1, 2⟩].map (fun p => (p.id : ℚ))).sum,
       ([(⟨0, 1⟩ : Place), ⟨1, 2⟩].map (fun p =>
          2 * intraProximity (fun pr => if pr = (1, 0) then some (1/3) else none) [⟨0, 1⟩, ⟨1, 2⟩] p)).sum) :=
  C1_HPFR_aggregate_score [⟨0, 1⟩, ⟨1, 2⟩] (fun i => (i : ℚ))
    (fun pr => if pr = (1, 0) then some (1/3) else none) 2 4
    (by decide) (by decide) (by norm_num)

/-- C6.  For a proximity table that stores each unordered pair under at
most one key direction, the lookup is symmetric and agrees with the
spec's "if present, else reversed, else 0" description. -/
theorem C6_symmetric_lookup (sS : ℕ × ℕ → Option ℚ) (pi pj : Place)
    (h : sS (pi.id, pj.id) = none ∨ sS (pj.id, pi.id) = none) :
    spacial_proximity sS pi pj = spacial_proximity sS pj pi
    ∧ spacial_proximity sS pi pj = symmetric_lookup_spec sS pi.id pj.id := by
  rcases h with h | h
  · cases ho : sS (pj.id, pi.id) with
    | none => simp [spacial_proximity, symmetric_lookup_spec, pyOr, h, ho]
    | some v =>
      by_cases hv : v = 0 <;>
        simp [spacial_proximity, symmetric_lookup_spec, pyOr, h, ho, hv]
  · cases ho : sS (pi.id, pj.id) with
    | none => simp [spacial_proximity, symmetric_lookup_spec, pyOr, h, ho]
    | some v =>
      by_cases hv : v = 0 <;>
        simp [spacial_proximity, symmetric_lookup_spec, pyOr, h, ho, hv]

/-- Witness for C6: the pair (0,1) is stored only under the reversed
direction. -/
theorem C6_symmetric_lookup_witness :
    spacial_proximity (fun pr => if pr = (1, 0) then some (1/3) else none) ⟨0, 1⟩ ⟨1, 2⟩
      = spacial_proximity (fun pr => if pr = (1, 0) then some (1/3) else none) ⟨1, 2⟩ ⟨0, 1⟩
    ∧ spacial_proximity (fun pr => if pr = (1, 0) then some (1/3) else none) ⟨0, 1⟩ ⟨1, 2⟩
      = symmetric_lookup_spec (fun pr => if pr = (1, 0) then some (1/3) else none)
          (Place.id ⟨0, 1⟩) (Place.id ⟨1, 2⟩) :=
  C6_symmetric_lookup (fun pr => if pr = (1, 0) then some (1/3) else none) ⟨0, 1⟩ ⟨1, 2⟩
    (Or.inl (by decide))

/-- C8.  `HPFR_div` returns the relevance term and proximity-penalty term
of the objective un-normalized and separately; recombining them with the
aggregate formula's normalizations gives exactly `HPFR`'s score, and its
two diagnostic side outputs equal `HPFR`'s. -/
theorem C8_HPFR_div_refines_HPFR (R : List Place) (psS : ℕ → ℚ)
    (sS : ℕ × ℕ → Option ℚ) (W K : ℚ) (hne : R ≠ []) (hKW : K ≠ W) :
    HPFR R psS sS W K = .ok
      ((HPFR_div R psS sS W K).1 / (2 * (R.length : ℚ))
        + (HPFR_div R psS sS W K).2.1 / (2 * (R.length : ℚ) * (K - W)),
       (HPFR_div R psS sS W K).2.2.1,
       (HPFR_div R psS sS W K).2.2.2) := by
  unfold HPFR HPFR_div
  rw [if_neg]
  push_neg
  exact ⟨fun h => hne (List.length_eq_zero.mp h), sub_ne_zero.mpr hKW⟩

/-- Witness for C8 on a concrete two-point subset. -/
theorem C8_HPFR_div_refines_HPFR_witness :
    HPFR [⟨0, 1⟩, ⟨1, 2⟩] (fun _ => 5) (fun _ => some (1/2)) 3 7 = .ok
      ((HPFR_div [⟨0, 1⟩, ⟨1, 2⟩] (fun _ => 5) (fun _ => some (1/2)) 3 7).1
          / (2 * (([⟨0, 1⟩, ⟨1, 2⟩] : List Place).length : ℚ))
        + (HPFR_div [⟨0, 1⟩, ⟨1, 2⟩] (fun _ => 5) (fun _ => some (1/2)) 3 7).2.1
          / (2 * (([⟨0, 1⟩, ⟨1, 2⟩] : List Place).length : ℚ) * (7 - 3)),
       (HPFR_div [⟨0, 1⟩, ⟨1, 2⟩] (fun _ => 5) (fun _ => some (1/2)) 3 7).2.2.1,
       (HPFR_div [⟨0, 1⟩, ⟨1, 2⟩] (fun _ => 5) (fun _ => some (1/2)) 3 7).2.2.2) :=
  C8_HPFR_div_refines_HPFR [⟨0, 1⟩, ⟨1, 2⟩] (fun _ => 5) (fun _ => some (1/2)) 3 7
    (by decide) (by norm_num)

/-- C9 counterexample: a single-point set with `k = 1` (so `K = len(S) = 1`,
here with `W = 0`) does not raise any error: `HPFR` returns the score
`rF/2 + psS/2 = 1/2`.  No `InvalidBudget` check exists in the code. -/
theorem C9_counterexample_single_point_returns_score :
    HPFR [⟨0, 1⟩] (fun _ => 0) (fun _ => none) 0 1 = .ok (1/2, 0, 0) := by
  norm_num [HPFR, psR_loop]

/-- C9 amended: for a single point and `k = 1`, the scoring path returns a
score rather than raising: `HPFR` yields `rF/2 + psS[id]/(2(K-W))` (the
intra-proximity sum over a singleton subset is empty), provided only
`K ≠ W`; there is no `k ≥ 2` requirement in `HPFR`. -/
theorem C9_amended_single_point_scores (p : Place) (psS : ℕ → ℚ)
    (sS : ℕ × ℕ → Option ℚ) (W K : ℚ) (hKW : K ≠ W) :
    HPFR [p] psS sS W K = .ok (p.rF / 2 + psS p.id / (2 * (K - W)), psS p.id, 0) := by
  have hps : psR_loop sS [p] = (fun _ => 0) := by
    unfold psR_loop
    simp
  unfold HPFR
  rw [if_neg (by push_neg; exact ⟨one_ne_zero, sub_ne_zero.mpr hKW⟩)]
  rw [hps]
  simp

/-- Witness for the C9 amended theorem at the counterexample's input. -/
theorem C9_amended_single_point_scores_witness :
    HPFR [⟨0, 1⟩] (fun _ => 0) (fun _ => none) 0 1
      = .ok ((Place.rF ⟨0, 1⟩) / 2 + 0 / (2 * ((1 : ℚ) - 0)), 0, 0) :=
  C9_amended_single_point_scores ⟨0, 1⟩ (fun _ => 0) (fun _ => none) 0 1 (by norm_num)

/-- C10.  `HPF` reads the pair table by direct one-directional indexing:
whenever the key `(pi.id, pj.id)` is absent (for example because the pair
is stored only under the reversed key), `HPF` never returns a value, and
(as soon as `k ≠ 1`, so that the divisions by `k-1` do not raise first)
it raises `KeyError`; by contrast the symmetric helper used by `HPFR`
falls back to the reversed key. -/
theorem C10_HPF_direct_one_directional_index (pi pj : Place) (W : ℚ)
    (psS : ℕ → ℚ) (sS : ℕ × ℕ → Option ℚ) (k : ℕ)
    (habs : sS (pi.id, pj.id) = none) :
    (∀ v, HPF pi pj W psS sS k ≠ .ok v)
    ∧ (k ≠ 1 → HPF pi pj W psS sS k = .error .keyError)
    ∧ (∀ w, sS (pj.id, pi.id) = some w → w ≠ 0 →
        spacial_proximity sS pi pj = w) := by
  refine ⟨?_, ?_, ?_⟩
  · intro v
    unfold HPF
    by_cases hk : k = 1
    · simp [hk]
    · simp [hk, habs]
  · intro hk
    unfold HPF
    simp [hk, habs]
  · intro w hw hw0
    unfold spacial_proximity pyOr
    rw [habs, hw]
    simp [hw0]

/-- Witness for C10: a table storing the pair only as `(1,0)` makes `HPF`
raise `KeyError` at `(pi, pj) = (0, 1)` with `k = 3`. -/
theorem C10_HPF_direct_one_directional_index_witness :
    HPF ⟨0, 1⟩ ⟨1, 2⟩ 2 (fun _ => 0) (fun pr => if pr = (1, 0) then some 5 else none) 3
      = .error .keyError :=
  (C10_HPF_direct_one_directional_index ⟨0, 1⟩ ⟨1, 2⟩ 2 (fun _ => 0)
    (fun pr => if pr = (1, 0) then some 5 else none) 3 (by decide)).2.1 (by decide)

/-! ### Sampling without replacement: structure of `random.sample` draws -/

/-- Removing the `i`-th element and re-consing it is a permutation. -/
theorem get_cons_eraseIdx_perm :
    ∀ (l : List Place) (i : ℕ) (h : i < l.length),
      (l.get ⟨i, h⟩ :: l.eraseIdx i).Perm l := by
  intro l
  induction l with
  | nil => intro i h; cases h
  | cons a t ih =>
    intro i h
    cases i with
    | zero => exact List.Perm.refl _
    | succ i =>
      have hi : i < t.length := Nat.lt_of_succ_lt_succ h
      exact (List.Perm.swap a (t.get ⟨i, hi⟩) (t.eraseIdx i)).trans ((ih i hi).cons a)

/-- A subpermutation of a list with duplicate-free image has a
duplicate-free image. -/
theorem subperm_map_nodup {l₁ l₂ : List Place} (f : Place → ℕ)
    (h : l₁.Subperm l₂) (hnd : (l₂.map f).Nodup) : (l₁.map f).Nodup := by
  obtain ⟨l, hp, hs⟩ := h
  have h1 : (l.map f).Nodup := hnd.sublist (hs.map f)
  exact ((hp.map f).nodup_iff).mp h1

/-- The selection loop draws a subpermutation of the pool (distinct
positions, without replacement). -/
theorem sample_aux_subperm (g : ℕ → ℕ) :
    ∀ (n step : ℕ) (pool : List Place), (sample_aux g step pool n).Subperm pool := by
  intro n
  induction n with
  | zero => intro step pool; exact List.nil_subperm
  | succ n ih =>
    intro step pool
    by_cases h : pool = []
    · subst h; simp [sample_aux]
    · rw [sample_aux, dif_neg h]
      have hsub : (sample_aux g (step + 1)
          (pool.eraseIdx (g step % pool.length)) n).Subperm
          (pool.eraseIdx (g step % pool.length)) := ih _ _
      have hcons := (List.subperm_cons
        (pool.get ⟨g step % pool.length, Nat.mod_lt _ (List.length_pos.mpr h)⟩)).mpr hsub
      exact hcons.trans (get_cons_eraseIdx_perm pool _ _).subperm

/-- The selection loop returns exactly `n` elements when the pool is
large enough. -/
theorem sample_aux_length (g : ℕ → ℕ) :
    ∀ (n step : ℕ) (pool : List Place), n ≤ pool.length →
      (sample_aux g step pool n).length = n := by
  intro n
  induction n with
  | zero => intro step pool _; rfl
  | succ n ih =>
    intro step pool hn
    have h : pool ≠ [] := by
      intro he; rw [he] at hn; exact Nat.not_succ_le_zero n hn
    rw [sample_aux, dif_neg h, List.length_cons]
    have hlt : g step % pool.length < pool.length :=
      Nat.mod_lt _ (List.length_pos.mpr h)
    have hlen := List.length_eraseIdx_add_one hlt
    rw [ih (step + 1) _ (by omega)]

/-- The selection loop only reads the stream positions it consumes: its
result depends only on the draws `g step, …, g (step + n - 1)`. -/
theorem sample_aux_congr (g g' : ℕ → ℕ) :
    ∀ (n step : ℕ) (pool : List Place), (∀ i, i < n → g (step + i) = g' (step + i)) →
      sample_aux g step pool n = sample_aux g' step pool n := by
  intro n
  induction n with
  | zero => intro step pool _; rfl
  | succ n ih =>
    intro step pool hg
    by_cases h : pool = []
    · rw [sample_aux, sample_aux, dif_pos h, dif_pos h]
    · rw [sample_aux, sample_aux, dif_neg h, dif_neg h]
      have h0 : g step = g' step := by simpa using hg 0 (Nat.succ_pos n)
      simp only [h0]
      exact congrArg _ (ih (step + 1) _ fun i hi => by
        have := hg (i + 1) (Nat.succ_lt_succ hi)
        rwa [show step + (i + 1) = step + 1 + i by omega] at this)

/-- C5 counterexample: the uniform-random sampler called with `k` larger
than `|S|` raises `ValueError` (Python `random.sample`) instead of
returning all eligible points, contradicting the claim that all eligible
points are returned when fewer than `k` exist. -/
theorem C5_counterexample_select_random_over_budget :
    select_random (fun _ => 0) [⟨0, 1⟩] 2 = none := rfl

/-- C5 amended: a sampler draw is a subpermutation of its pool (distinct
elements, hence distinct ids when the pool's ids are distinct).
`select_random` returns exactly `k` points when `k ≤ |S|` and raises
`ValueError` (never "all eligible points") when `k > |S|`; the per-cell
draws of the grid samplers are pre-clamped to `min(quota, cellSize)` and
return exactly that many members of the cell. -/
theorem C5_amended_sampler_sizes (g : ℕ → ℕ) (S : List Place) (k : ℕ) :
    (k ≤ S.length → ∃ R, select_random g S k = some R ∧ R.length = k ∧ R.Subperm S
       ∧ ((S.map Place.id).Nodup → (R.map Place.id).Nodup))
    ∧ (S.length < k → select_random g S k = none)
    ∧ (∀ (step : ℕ) (c : Cell) (q : ℕ),
        (sample_aux g step c.places (min q (cellSize c))).length = min q (cellSize c)
        ∧ (sample_aux g step c.places (min q (cellSize c))).Subperm c.places) := by
  refine ⟨?_, ?_, ?_⟩
  · intro hk
    refine ⟨sample_aux g 0 S k, ?_, ?_, ?_, ?_⟩
    · unfold select_random random_sample
      rw [if_neg (Nat.not_lt.mpr hk)]
    · exact sample_aux_length g k 0 S hk
    · exact sample_aux_subperm g k 0 S
    · exact fun hnd => subperm_map_nodup Place.id (sample_aux_subperm g k 0 S) hnd
  · intro hk
    unfold select_random random_sample
    rw [if_pos hk]
  · intro step c q
    exact ⟨sample_aux_length g _ step c.places (Nat.min_le_right _ _),
           sample_aux_subperm g _ step c.places⟩

/-- Witness for the C5 amended theorem: drawing 1 of 2 points succeeds
with the stated structure. -/
theorem C5_amended_sampler_sizes_witness :
    ∃ R, select_random (fun _ => 0) [⟨0, 1⟩, ⟨1, 2⟩] 1 = some R
      ∧ R.length = 1 ∧ R.Subperm [⟨0, 1⟩, ⟨1, 2⟩]
      ∧ ((([⟨0, 1⟩, ⟨1, 2⟩] : List Place).map Place.id).Nodup → (R.map Place.id).Nodup) :=
  (C5_amended_sampler_sizes (fun _ => 0) [⟨0, 1⟩, ⟨1, 2⟩] 1).1 (by decide)

/-- C7 counterexample: `select_random(S, k)` has no random-source
parameter; with identical Python-visible arguments `(S, k)` its result
differs under two states of the hidden module-global generator, so the
selection is not a function of an explicit, injectable random source. -/
theorem C7_counterexample_global_stream_dependence :
    select_random (fun _ => 0) [⟨0, 1⟩, ⟨1, 2⟩] 1
      ≠ select_random (fun _ => 1) [⟨0, 1⟩, ⟨1, 2⟩] 1 := by
  decide

/-- C7 amended: the samplers draw from the module-global generator
(modelled as the ambient stream), not from an injectable parameter; the
draw is nevertheless deterministic in that hidden state: `select_random`
depends only on `(S, k)` and the first `k` draws of the global stream, so
runs are reproducible exactly when the global generator is identically
seeded. -/
theorem C7_amended_stream_prefix_determinism (g g' : ℕ → ℕ) (S : List Place)
    (k : ℕ) (h : ∀ i, i < k → g i = g' i) :
    select_random g S k = select_random g' S k := by
  unfold select_random random_sample
  rw [sample_aux_congr g g' k 0 S fun i hi => by simpa using h i hi]

/-- Witness for the C7 amended theorem: two streams agreeing on their
first two draws select the same pair. -/
theorem C7_amended_stream_prefix_determinism_witness :
    select_random (fun _ => 0) [⟨0, 1⟩, ⟨1, 2⟩] 2
      = select_random (fun i => if i < 2 then 0 else 7) [⟨0, 1⟩, ⟨1, 2⟩] 2 :=
  C7_amended_stream_prefix_determinism (fun _ => 0) (fun i => if i < 2 then 0 else 7)
    [⟨0, 1⟩, ⟨1, 2⟩] 2 (fun i hi => by simp [hi])

/-- C3 counterexample: a sampler invocation with `S = ∅` (so `R` ends
empty) silently returns the empty selection with score `0.0` — the early
`if K == 0 or k == 0: return [], 0.0, 0.0, 0.0, …` of `grid_sampling` —
instead of signalling an error. -/
theorem C3_counterexample_silent_empty_selection :
    grid_sampling (fun _ => 0) [] 5 1 [] (fun _ => 0) (fun _ => none)
      = .ok ([], 0, 0, 0) := rfl

/-- C3 amended: the grid samplers silently return an empty `R` with zero
score exactly on their degenerate early-return paths: `k = 0` or `S = ∅`
(both samplers), and, for `grid_weighted_sampling` only, a zero total
cell score (`grid_weighted_alloc … = none`, i.e. `Σ count·Σweights = 0`,
e.g. all weights zero).  On every other invocation (`k ≠ 0`, `S ≠ ∅`,
and a nonzero total score for the weighted sampler) an empty draw raises
`ValueError` — never a silent zero score — so any successfully returned
`R` is non-empty. -/
theorem C3_amended_empty_selection_behavior (g : ℕ → ℕ) (S : List Place)
    (k : ℕ) (W : ℚ) (CL : List Cell) (psS : ℕ → ℚ) (sS : ℕ × ℕ → Option ℚ) :
    ((k = 0 ∨ S = []) → grid_sampling g S k W CL psS sS = .ok ([], 0, 0, 0))
    ∧ (k ≠ 0 → S ≠ [] → ∀ R s a b,
        grid_sampling g S k W CL psS sS = .ok (R, s, a, b) → R ≠ [])
    ∧ ((k = 0 ∨ S = []) → grid_weighted_sampling g S k W CL psS sS = .ok ([], 0, 0, 0))
    ∧ (grid_weighted_alloc k CL = none →
        grid_weighted_sampling g S k W CL psS sS = .ok ([], 0, 0, 0))
    ∧ (k ≠ 0 → S ≠ [] → grid_weighted_alloc k CL ≠ none → ∀ R s a b,
        grid_weighted_sampling g S k W CL psS sS = .ok (R, s, a, b) → R ≠ []) := by
  refine ⟨?_, ?_, ?_, ?_, ?_⟩
  · intro h
    unfold grid_sampling
    rcases h with h | h
    · simp [h]
    · simp [h]
  · intro hk hS R s a b hok
    unfold grid_sampling at hok
    rw [if_neg (by push_neg; exact ⟨fun h => hS (List.length_eq_zero.mp h), hk⟩)] at hok
    by_cases hR : draw_cells g (grid_alloc k S.length CL) CL = []
    · rw [if_pos hR] at hok
      cases hok
    · rw [if_neg hR] at hok
      cases hH : HPFR (draw_cells g (grid_alloc k S.length CL) CL) psS sS W (S.length : ℚ) with
      | error e => rw [hH] at hok; cases hok
      | ok t =>
        obtain ⟨ts, ta, tb⟩ := t
        rw [hH] at hok
        simp only [Except.ok.injEq, Prod.mk.injEq] at hok
        exact hok.1 ▸ hR
  · intro h
    unfold grid_weighted_sampling
    rcases h with h | h
    · simp [h]
    · simp [h]
  · intro hn
    unfold grid_weighted_sampling
    by_cases hg : S.length = 0 ∨ k = 0
    · rw [if_pos hg]
    · rw [if_neg hg, hn]
  · intro hk hS hall R s a b hok
    unfold grid_weighted_sampling at hok
    rw [if_neg (by push_neg; exact ⟨fun h => hS (List.length_eq_zero.mp h), hk⟩)] at hok
    cases halloc : grid_weighted_alloc k CL with
    | none => exact absurd halloc hall
    | some kalloc =>
      rw [halloc] at hok
      dsimp only at hok
      by_cases hR : draw_cells g kalloc CL = []
      · rw [if_pos hR] at hok
        cases hok
      · rw [if_neg hR] at hok
        cases hH : HPFR (draw_cells g kalloc CL) psS sS W (S.length : ℚ) with
        | error e => rw [hH] at hok; cases hok
        | ok t =>
          obtain ⟨ts, ta, tb⟩ := t
          rw [hH] at hok
          simp only [Except.ok.injEq, Prod.mk.injEq] at hok
          exact hok.1 ▸ hR

/-- Witness for the C3 amended theorem: the `k = 0` early return of
`grid_sampling` on a non-empty `S`, and the zero-total-score early
return of `grid_weighted_sampling` with `k = 1`, a non-empty `S` and an
all-zero-weight cell. -/
theorem C3_amended_empty_selection_behavior_witness :
    grid_sampling (fun _ => 0) [⟨0, 1⟩] 0 1 [⟨(0, 0), [⟨0, 1⟩]⟩] (fun _ => 0) (fun _ => none)
      = .ok ([], 0, 0, 0)
    ∧ grid_weighted_sampling (fun _ => 0) [⟨0, 0⟩] 1 1 [⟨(0, 0), [⟨0, 0⟩]⟩]
        (fun _ => 0) (fun _ => none)
      = .ok ([], 0, 0, 0) :=
  ⟨(C3_amended_empty_selection_behavior (fun _ => 0) [⟨0, 1⟩] 0 1 [⟨(0, 0), [⟨0, 1⟩]⟩]
      (fun _ => 0) (fun _ => none)).1 (Or.inl rfl),
   (C3_amended_empty_selection_behavior (fun _ => 0) [⟨0, 0⟩] 1 1 [⟨(0, 0), [⟨0, 0⟩]⟩]
      (fun _ => 0) (fun _ => none)).2.2.2.1 (by norm_num [grid_weighted_alloc, cellSize])⟩

/-! ### Largest-remainder allocation: arithmetic of floors and remainders -/

theorem sum_map_sub {β : Type} (l : List β) (f h : β → ℚ) :
    (l.map (fun x => f x - h x)).sum = (l.map f).sum - (l.map h).sum := by
  induction l with
  | nil => simp
  | cons a t ih => simp [ih]; ring

theorem sum_map_add_int {β : Type} (l : List β) (f h : β → ℤ) :
    (l.map (fun x => f x + h x)).sum = (l.map f).sum + (l.map h).sum := by
  induction l with
  | nil => simp
  | cons a t ih => simp [ih]; ring

/-- A list of entries each below `1` has sum less than its length plus
nothing — in the form needed here: the sum is less than the count of its
positive entries plus one, provided all entries are nonnegative. -/
theorem sum_lt_countP_pos_add_one :
    ∀ (l : List ℚ), (∀ x ∈ l, 0 ≤ x ∧ x < 1) →
      l.sum < (l.countP (fun x => decide (0 < x)) : ℚ) + 1 := by
  intro l
  induction l with
  | nil => simp
  | cons a t ih =>
    intro h
    have ha := h a (List.mem_cons_self a t)
    have ht := ih fun x hx => h x (List.mem_cons_of_mem a hx)
    rw [List.sum_cons, List.countP_cons]
    by_cases hpos : 0 < a
    · simp only [hpos, decide_True, if_pos]
      push_cast
      calc a + t.sum < 1 + ((t.countP (fun x => decide (0 < x)) : ℚ) + 1) := by
            exact add_lt_add ha.2 ht
        _ = (t.countP (fun x => decide (0 < x)) : ℚ) + 1 + 1 := by ring
    · have ha0 : a = 0 := le_antisymm (not_lt.mp hpos) ha.1
      simp [ha0, ht]

/-- Counting members of a duplicate-free sublist `B` inside a
duplicate-free list gives exactly `B`'s length. -/
theorem countP_mem_eq_length {α : Type} [DecidableEq α] (l B : List α)
    (hl : l.Nodup) (hB : B.Nodup) (hBl : ∀ x ∈ B, x ∈ l) :
    l.countP (fun x => decide (x ∈ B)) = B.length := by
  rw [List.countP_eq_length_filter]
  have hperm : (l.filter (fun x => decide (x ∈ B))).Perm B := by
    rw [List.perm_ext_iff_of_nodup (hl.filter _) hB]
    intro a
    simp only [List.mem_filter, decide_eq_true_eq]
    exact ⟨fun h => h.2, fun h => ⟨hBl a h, h⟩⟩
  exact hperm.length_eq

theorem sum_map_if_mem {α : Type} [DecidableEq α] (l B : List α) :
    (l.map (fun x => if x ∈ B then (1 : ℤ) else 0)).sum
      = (l.countP (fun x => decide (x ∈ B)) : ℤ) := by
  induction l with
  | nil => simp
  | cons a t ih =>
    rw [List.map_cons, List.sum_cons, List.countP_cons, ih]
    by_cases h : a ∈ B
    · simp [h]; ring
    · simp [h]

theorem cast_sum_int_list {β : Type} (l : List β) (f : β → ℤ) :
    (((l.map f).sum : ℤ) : ℚ) = (l.map (fun x => ((f x : ℤ) : ℚ))).sum := by
  induction l with
  | nil => simp
  | cons a t ih => simp [ih]

theorem map_snd_map_pair {α β γ : Type} (l : List β) (g : β → α) (h : β → γ) :
    ((l.map (fun c => (g c, h c))).map Prod.snd) = l.map h := by
  rw [List.map_map]; rfl

theorem map_fst_map_pair {α β γ : Type} (l : List β) (g : β → α) (h : β → γ) :
    ((l.map (fun c => (g c, h c))).map Prod.fst) = l.map g := by
  rw [List.map_map]; rfl

theorem sum_lt_length :
    ∀ (l : List ℚ), l ≠ [] → (∀ x ∈ l, x < 1) → l.sum < (l.length : ℚ) := by
  intro l
  induction l with
  | nil => intro h; exact absurd rfl h
  | cons a t ih =>
    intro _ hx
    by_cases ht : t = []
    · subst ht
      simpa using hx a (List.mem_cons_self a [])
    · have h1 := hx a (List.mem_cons_self a t)
      have h2 := ih ht fun x hxt => hx x (List.mem_cons_of_mem a hxt)
      rw [List.sum_cons, List.length_cons]
      push_cast
      linarith

theorem lrm_remainders_map_fst {α : Type} (ideals : List (α × ℚ)) :
    (lrm_remainders ideals).map Prod.fst = ideals.map Prod.fst :=
  map_fst_map_pair ideals Prod.fst _

theorem lrm_remainders_length {α : Type} (ideals : List (α × ℚ)) :
    (lrm_remainders ideals).length = ideals.length := by
  rw [lrm_remainders, List.length_map]

theorem mem_lrm_remainders_bounds {α : Type} (ideals : List (α × ℚ)) :
    ∀ e ∈ lrm_remainders ideals, 0 ≤ e.2 ∧ e.2 < 1 := by
  intro e he
  rw [lrm_remainders, List.mem_map] at he
  obtain ⟨c, _, rfl⟩ := he
  refine ⟨sub_nonneg.mpr (Int.floor_le c.2), ?_⟩
  have := Int.lt_floor_add_one c.2
  rw [sub_lt_iff_lt_add]
  linarith

theorem lrm_kRem_cast {α : Type} (k : ℕ) (ideals : List (α × ℚ))
    (hsum : (ideals.map Prod.snd).sum = (k : ℚ)) :
    ((lrm_kRem k ideals : ℤ) : ℚ) = ((lrm_remainders ideals).map Prod.snd).sum := by
  have h1 : (lrm_remainders ideals).map Prod.snd
      = ideals.map (fun c => c.2 - (⌊c.2⌋ : ℚ)) :=
    map_snd_map_pair ideals Prod.fst _
  rw [h1, sum_map_sub, hsum, lrm_kRem]
  push_cast
  rw [List.map_map]
  rfl

theorem lrm_kRem_nonneg {α : Type} (k : ℕ) (ideals : List (α × ℚ))
    (hsum : (ideals.map Prod.snd).sum = (k : ℚ)) : 0 ≤ lrm_kRem k ideals := by
  have h0 : (0 : ℚ) ≤ ((lrm_kRem k ideals : ℤ) : ℚ) := by
    rw [lrm_kRem_cast k ideals hsum]
    exact List.sum_nonneg fun x hx => by
      rw [List.mem_map] at hx
      obtain ⟨e, he, rfl⟩ := hx
      exact (mem_lrm_remainders_bounds ideals e he).1
  exact_mod_cast h0

theorem lrm_kRem_le_length {α : Type} (k : ℕ) (ideals : List (α × ℚ))
    (hsum : (ideals.map Prod.snd).sum = (k : ℚ)) :
    lrm_kRem k ideals ≤ (ideals.length : ℤ) := by
  by_cases hnil : ideals = []
  · subst hnil
    simp only [List.map_nil, List.sum_nil] at hsum
    have hk : k = 0 := by exact_mod_cast hsum.symm
    simp [lrm_kRem, hk]
  · have hrnil : lrm_remainders ideals ≠ [] := by
      intro h
      rw [lrm_remainders] at h
      exact hnil (List.map_eq_nil_iff.mp h)
    have hlt : ((lrm_kRem k ideals : ℤ) : ℚ) < (ideals.length : ℚ) := by
      rw [lrm_kRem_cast k ideals hsum]
      have := sum_lt_length ((lrm_remainders ideals).map Prod.snd)
        (by simpa using hrnil)
        (fun x hx => by
          rw [List.mem_map] at hx
          obtain ⟨e, he, rfl⟩ := hx
          exact (mem_lrm_remainders_bounds ideals e he).2)
      simpa [lrm_remainders_length] using this
    have : lrm_kRem k ideals < (ideals.length : ℤ) := by exact_mod_cast hlt
    exact le_of_lt this

/-- Every entry kept by the largest-remainder take has a strictly
positive fractional remainder: there are at least `k_remaining` positive
remainders, the sort is descending, and a nonpositive entry inside the
taken prefix would force the positive count below `k_remaining`. -/
theorem lrm_take_pos {α : Type} (k : ℕ) (ideals : List (α × ℚ))
    (hsum : (ideals.map Prod.snd).sum = (k : ℚ)) :
    ∀ e ∈ (((lrm_remainders ideals).insertionSort remGe).take
      (min (lrm_kRem k ideals)
        ((((lrm_remainders ideals).insertionSort remGe)).length : ℤ)).toNat),
      0 < e.2 := by
  intro e he
  by_contra hng
  push_neg at hng
  have hperm : ((lrm_remainders ideals).insertionSort remGe).Perm
      (lrm_remainders ideals) := List.perm_insertionSort _ _
  have hsorted : ((lrm_remainders ideals).insertionSort remGe).Sorted remGe :=
    List.sorted_insertionSort _ _
  obtain ⟨l1, l2, hsplit⟩ := List.append_of_mem he
  have hsrteq : (lrm_remainders ideals).insertionSort remGe
      = l1 ++ e :: (l2 ++ ((lrm_remainders ideals).insertionSort remGe).drop
          (min (lrm_kRem k ideals)
            ((((lrm_remainders ideals).insertionSort remGe)).length : ℤ)).toNat) := by
    conv_lhs => rw [← List.take_append_drop
      (min (lrm_kRem k ideals)
        ((((lrm_remainders ideals).insertionSort remGe)).length : ℤ)).toNat
      ((lrm_remainders ideals).insertionSort remGe)]
    rw [hsplit]
    simp [List.append_assoc]
  have hafter : ∀ y ∈ l2 ++ ((lrm_remainders ideals).insertionSort remGe).drop
      (min (lrm_kRem k ideals)
        ((((lrm_remainders ideals).insertionSort remGe)).length : ℤ)).toNat,
      y.2 ≤ e.2 := by
    have hpw := hsrteq ▸ (hsorted : List.Pairwise remGe _)
    have := (List.pairwise_append.mp hpw).2.1
    exact fun y hy => List.rel_of_pairwise_cons this hy
  -- count of positive remainders is at most the prefix before `e`
  have hzero : (e :: (l2 ++ ((lrm_remainders ideals).insertionSort remGe).drop
      (min (lrm_kRem k ideals)
        ((((lrm_remainders ideals).insertionSort remGe)).length : ℤ)).toNat)).countP
      (fun x => decide (0 < x.2)) = 0 := by
    rw [List.countP_eq_zero]
    intro a ha
    rcases List.mem_cons.mp ha with rfl | ha2
    · simpa using not_lt.mpr hng
    · simpa using not_lt.mpr ((hafter a ha2).trans hng)
  have hPle : ((lrm_remainders ideals).insertionSort remGe).countP
      (fun x => decide (0 < x.2)) ≤ l1.length := by
    rw [hsrteq, List.countP_append, hzero]
    simpa using List.countP_le_length (l := l1) _
  -- the taken prefix has full length `min kRem len`, so `e`'s position is
  -- below `kRem`
  have htoNat_le : (min (lrm_kRem k ideals)
      ((((lrm_remainders ideals).insertionSort remGe)).length : ℤ)).toNat
      ≤ ((lrm_remainders ideals).insertionSort remGe).length :=
    Int.toNat_le.mpr (min_le_right _ _)
  have htake_len : (((lrm_remainders ideals).insertionSort remGe).take
      (min (lrm_kRem k ideals)
        ((((lrm_remainders ideals).insertionSort remGe)).length : ℤ)).toNat).length
      = (min (lrm_kRem k ideals)
        ((((lrm_remainders ideals).insertionSort remGe)).length : ℤ)).toNat := by
    rw [List.length_take]
    exact min_eq_left htoNat_le
  have hl1 : l1.length + 1 ≤ (min (lrm_kRem k ideals)
      ((((lrm_remainders ideals).insertionSort remGe)).length : ℤ)).toNat := by
    rw [hsplit] at htake_len
    rw [List.length_append, List.length_cons] at htake_len
    omega
  -- at least `kRem` positive remainders exist
  have hbounds : ∀ x ∈ ((lrm_remainders ideals).insertionSort remGe).map Prod.snd,
      0 ≤ x ∧ x < 1 := by
    intro x hx
    rw [List.mem_map] at hx
    obtain ⟨y, hy, rfl⟩ := hx
    exact mem_lrm_remainders_bounds ideals y (hperm.subset hy)
  have hsum_lt := sum_lt_countP_pos_add_one
    (((lrm_remainders ideals).insertionSort remGe).map Prod.snd) hbounds
  have hcountmap : (((lrm_remainders ideals).insertionSort remGe).map Prod.snd).countP
      (fun x => decide (0 < x))
      = ((lrm_remainders ideals).insertionSort remGe).countP (fun x => decide (0 < x.2)) := by
    rw [List.countP_map]
    rfl
  have hsums : (((lrm_remainders ideals).insertionSort remGe).map Prod.snd).sum
      = ((lrm_remainders ideals).map Prod.snd).sum := (hperm.map Prod.snd).sum_eq
  have hkRcast := lrm_kRem_cast k ideals hsum
  have hkRleP : lrm_kRem k ideals
      ≤ (((lrm_remainders ideals).insertionSort remGe).countP
          (fun x => decide (0 < x.2)) : ℤ) := by
    have : ((lrm_kRem k ideals : ℤ) : ℚ)
        < (((lrm_remainders ideals).insertionSort remGe).countP
            (fun x => decide (0 < x.2)) : ℚ) + 1 := by
      rw [hkRcast, ← hsums, ← hcountmap]
      exact hsum_lt
    have h2 : lrm_kRem k ideals
        < (((lrm_remainders ideals).insertionSort remGe).countP
            (fun x => decide (0 < x.2)) : ℤ) + 1 := by
      exact_mod_cast this
    omega
  have hkR0 : 0 ≤ lrm_kRem k ideals := lrm_kRem_nonneg k ideals hsum
  have hmin : ((min (lrm_kRem k ideals)
      ((((lrm_remainders ideals).insertionSort remGe)).length : ℤ)).toNat : ℤ)
      ≤ lrm_kRem k ideals := by
    rw [Int.toNat_of_nonneg (le_min hkR0 (by positivity))]
    · exact min_le_left _ _
  omega

theorem lrm_bumped_length {α : Type} (k : ℕ) (ideals : List (α × ℚ))
    (hsum : (ideals.map Prod.snd).sum = (k : ℚ)) :
    (lrm_bumped k ideals).length = (lrm_kRem k ideals).toNat := by
  have hperm : ((lrm_remainders ideals).insertionSort remGe).Perm
      (lrm_remainders ideals) := List.perm_insertionSort _ _
  have hlen : ((lrm_remainders ideals).insertionSort remGe).length
      = ideals.length := by
    rw [hperm.length_eq, lrm_remainders_length]
  have hkR0 : 0 ≤ lrm_kRem k ideals := lrm_kRem_nonneg k ideals hsum
  have hkRle : lrm_kRem k ideals ≤ (ideals.length : ℤ) :=
    lrm_kRem_le_length k ideals hsum
  rw [lrm_bumped]
  rw [List.length_map, List.length_take, hlen]
  rw [min_eq_left hkRle]
  exact min_eq_left (by omega)

theorem lrm_bumped_subset {α : Type} (k : ℕ) (ideals : List (α × ℚ)) :
    ∀ x ∈ lrm_bumped k ideals, x ∈ ideals.map Prod.fst := by
  intro x hx
  rw [lrm_bumped] at hx
  rw [List.mem_map] at hx
  obtain ⟨e, he, rfl⟩ := hx
  have he2 : e ∈ (lrm_remainders ideals).insertionSort remGe :=
    List.mem_of_mem_take he
  have he3 : e ∈ lrm_remainders ideals :=
    (List.perm_insertionSort _ _).subset he2
  rw [← lrm_remainders_map_fst]
  exact List.mem_map_of_mem Prod.fst he3

theorem lrm_bumped_nodup {α : Type} (k : ℕ) (ideals : List (α × ℚ))
    (hnd : (ideals.map Prod.fst).Nodup) : (lrm_bumped k ideals).Nodup := by
  have hperm : ((lrm_remainders ideals).insertionSort remGe).Perm
      (lrm_remainders ideals) := List.perm_insertionSort _ _
  have h1 : (((lrm_remainders ideals).insertionSort remGe).map Prod.fst).Nodup := by
    rw [(hperm.map Prod.fst).nodup_iff, lrm_remainders_map_fst]
    exact hnd
  rw [lrm_bumped]
  rw [List.map_take]
  exact h1.sublist (List.take_sublist _ _)

theorem lrm_bumped_frac_pos {α : Type} (k : ℕ) (ideals : List (α × ℚ))
    (hnd : (ideals.map Prod.fst).Nodup)
    (hsum : (ideals.map Prod.snd).sum = (k : ℚ)) :
    ∀ c ∈ ideals, c.1 ∈ lrm_bumped k ideals → 0 < c.2 - (⌊c.2⌋ : ℚ) := by
  intro c hc hcB
  rw [lrm_bumped, List.mem_map] at hcB
  obtain ⟨e, heTake, heFst⟩ := hcB
  have hepos : 0 < e.2 := lrm_take_pos k ideals hsum e heTake
  have he2 : e ∈ lrm_remainders ideals :=
    (List.perm_insertionSort _ _).subset (List.mem_of_mem_take heTake)
  rw [lrm_remainders, List.mem_map] at he2
  obtain ⟨c', hc', hce⟩ := he2
  have hfst : c'.1 = c.1 := by rw [← heFst, ← hce]
  have : c' = c := List.inj_on_of_nodup_map hnd hc' hc hfst
  subst this
  rw [← hce] at hepos
  exact hepos

/-- The quotas assigned by one largest-remainder pass sum to exactly `k`
whenever the ideals sum to `k` (in particular whenever the cell scores
are not all zero, since `ideal_i = k·score_i/Σscore`). -/
theorem lrm_core_sum {α : Type} [DecidableEq α] (k : ℕ) (ideals : List (α × ℚ))
    (hnd : (ideals.map Prod.fst).Nodup)
    (hsum : (ideals.map Prod.snd).sum = (k : ℚ)) :
    ((lrm_core k ideals).map Prod.snd).sum = (k : ℤ) := by
  rw [lrm_core]
  rw [map_snd_map_pair ideals Prod.fst (lrm_quota k ideals)]
  rw [show ideals.map (lrm_quota k ideals)
    = ideals.map (fun c => ⌊c.2⌋ + if c.1 ∈ lrm_bumped k ideals then 1 else 0) from rfl]
  rw [sum_map_add_int ideals (fun c => ⌊c.2⌋)
    (fun c => if c.1 ∈ lrm_bumped k ideals then 1 else 0)]
  have hite : (ideals.map (fun c => if c.1 ∈ lrm_bumped k ideals then (1 : ℤ) else 0))
      = ((ideals.map Prod.fst).map (fun x => if x ∈ lrm_bumped k ideals then (1 : ℤ) else 0)) := by
    rw [List.map_map]
    rfl
  rw [hite, sum_map_if_mem]
  rw [countP_mem_eq_length (ideals.map Prod.fst) (lrm_bumped k ideals) hnd
    (lrm_bumped_nodup k ideals hnd) (lrm_bumped_subset k ideals)]
  rw [lrm_bumped_length k ideals hsum]
  have hkR0 : 0 ≤ lrm_kRem k ideals := lrm_kRem_nonneg k ideals hsum
  have : lrm_kRem k ideals = (k : ℤ) - (ideals.map (fun c => ⌊c.2⌋)).sum := rfl
  omega

theorem zip_map_self {β γ : Type} (l : List β) (f : β → γ) :
    (l.map f).zip l = l.map (fun x => (f x, x)) := by
  conv_lhs => rw [show ((l.map f).zip l : List (γ × β)) = (l.map f).zip (l.map id)
    from by rw [List.map_id]]
  rw [List.zip_map']
  rfl

/-- A cell whose ideal is at most `m` receives a quota of at most `m`:
its floor is at most `m`, and it gains the extra unit only when its
remainder is positive, i.e. when its floor is strictly below the ideal. -/
theorem lrm_quota_le {α : Type} [DecidableEq α] (k : ℕ) (ideals : List (α × ℚ))
    (hnd : (ideals.map Prod.fst).Nodup)
    (hsum : (ideals.map Prod.snd).sum = (k : ℚ))
    (c : α × ℚ) (hc : c ∈ ideals) (m : ℤ) (hm : c.2 ≤ (m : ℚ)) :
    lrm_quota k ideals c ≤ m := by
  rw [lrm_quota]
  by_cases hB : c.1 ∈ lrm_bumped k ideals
  · rw [if_pos hB]
    have hpos := lrm_bumped_frac_pos k ideals hnd hsum c hc hB
    have h1 : (⌊c.2⌋ : ℚ) < (m : ℚ) := by linarith
    have h2 : ⌊c.2⌋ < m := by exact_mod_cast h1
    omega
  · rw [if_neg hB, add_zero]
    have h1 : ⌊c.2⌋ ≤ ⌊(m : ℚ)⌋ := Int.floor_le_floor hm
    simpa using h1

/-- A cell whose ideal is at least `m` receives a quota of at least `m`. -/
theorem lrm_quota_ge {α : Type} [DecidableEq α] (k : ℕ) (ideals : List (α × ℚ))
    (c : α × ℚ) (m : ℤ) (hm : (m : ℚ) ≤ c.2) :
    m ≤ lrm_quota k ideals c := by
  rw [lrm_quota]
  have h1 : m ≤ ⌊c.2⌋ := Int.le_floor.mpr hm
  by_cases hB : c.1 ∈ lrm_bumped k ideals
  · rw [if_pos hB]; omega
  · rw [if_neg hB]; omega

theorem cast_sum_cellSize (CL : List Cell) :
    (CL.map (fun c => (cellSize c : ℤ))).sum = (((CL.map cellSize).sum : ℕ) : ℤ) := by
  rw [Nat.cast_list_sum, List.map_map]
  rfl

theorem zip_min_sum (q : List ((ℕ × ℕ) × ℤ)) (CL : List Cell) (Q : Cell → ℤ)
    (hq : q = CL.map (fun c => (c.id, Q c))) :
    ((q.zip CL).map (fun p => min p.1.2 (cellSize p.2 : ℤ))).sum
      = (CL.map (fun c => min (Q c) (cellSize c : ℤ))).sum := by
  subst hq
  rw [zip_map_self, List.map_map]
  rfl

theorem zip_mem_struct (q : List ((ℕ × ℕ) × ℤ)) (CL : List Cell) (Q : Cell → ℤ)
    (hq : q = CL.map (fun c => (c.id, Q c))) :
    ∀ p ∈ q.zip CL, ∃ c ∈ CL, p = ((c.id, Q c), c) := by
  subst hq
  rw [zip_map_self]
  intro p hp
  rw [List.mem_map] at hp
  obtain ⟨c, hc, rfl⟩ := hp
  exact ⟨c, hc, rfl⟩

theorem grid_alloc_clamped (k K : ℕ) (CL : List Cell)
    (hnd : (CL.map Cell.id).Nodup) (hCL : CL ≠ [])
    (hsz : ∀ c ∈ CL, cellSize c ≠ 0)
    (hK : K = (CL.map cellSize).sum) :
    (((grid_alloc k K CL).zip CL).map (fun p => min p.1.2 (cellSize p.2 : ℤ))).sum
      = min (k : ℤ) (((CL.map cellSize).sum : ℕ) : ℤ)
    ∧ ∀ p ∈ (grid_alloc k K CL).zip CL,
        0 ≤ p.1.2 ∧ min p.1.2 (cellSize p.2 : ℤ) ≤ (cellSize p.2 : ℤ) := by
  have hfilt : CL.filter (fun c => cellSize c ≠ 0) = CL :=
    List.filter_eq_self.mpr (fun a ha => by simpa using hsz a ha)
  have hga : grid_alloc k K CL
      = lrm_core k (CL.map (fun c => (c.id, (k : ℚ) * ((cellSize c : ℚ) / (K : ℚ))))) := by
    rw [grid_alloc, hfilt]
  have hfst : ((CL.map (fun c => (c.id, (k : ℚ) * ((cellSize c : ℚ) / (K : ℚ))))).map
      Prod.fst) = CL.map Cell.id :=
    map_fst_map_pair CL Cell.id _
  have hnd' : ((CL.map (fun c => (c.id, (k : ℚ) * ((cellSize c : ℚ) / (K : ℚ))))).map
      Prod.fst).Nodup := by rw [hfst]; exact hnd
  have hKpos : 0 < K := by
    obtain ⟨c0, t0, rfl⟩ := List.exists_cons_of_ne_nil hCL
    have h1 : cellSize c0 ≠ 0 := hsz c0 (List.mem_cons_self c0 t0)
    rw [hK]
    simp only [List.map_cons, List.sum_cons]
    omega
  have hKq : (0 : ℚ) < (K : ℚ) := by exact_mod_cast hKpos
  have hszsum : (CL.map (fun c => (cellSize c : ℚ))).sum = (K : ℚ) := by
    rw [hK, Nat.cast_list_sum, List.map_map]; rfl
  have hsum' : ((CL.map (fun c => (c.id, (k : ℚ) * ((cellSize c : ℚ) / (K : ℚ))))).map
      Prod.snd).sum = (k : ℚ) := by
    rw [map_snd_map_pair]
    simp only [div_eq_mul_inv]
    rw [List.sum_map_mul_left, List.sum_map_mul_right, hszsum]
    field_simp
  have hq : grid_alloc k K CL = CL.map (fun c =>
      (c.id, lrm_quota k (CL.map (fun c => (c.id, (k : ℚ) * ((cellSize c : ℚ) / (K : ℚ)))))
        (c.id, (k : ℚ) * ((cellSize c : ℚ) / (K : ℚ))))) := by
    rw [hga, lrm_core, List.map_map]
    rfl
  have hqsum : (CL.map (fun c =>
      lrm_quota k (CL.map (fun c => (c.id, (k : ℚ) * ((cellSize c : ℚ) / (K : ℚ)))))
        (c.id, (k : ℚ) * ((cellSize c : ℚ) / (K : ℚ))))).sum
      = (k : ℤ) := by
    have h1 := lrm_core_sum k
      (CL.map (fun c => (c.id, (k : ℚ) * ((cellSize c : ℚ) / (K : ℚ))))) hnd' hsum'
    rw [← hga] at h1
    rw [hq, map_snd_map_pair] at h1
    exact h1
  -- pointwise quota bounds
  have hquota_le_sz : k ≤ (CL.map cellSize).sum → ∀ c ∈ CL,
      lrm_quota k (CL.map (fun c => (c.id, (k : ℚ) * ((cellSize c : ℚ) / (K : ℚ)))))
        (c.id, (k : ℚ) * ((cellSize c : ℚ) / (K : ℚ)))
        ≤ (cellSize c : ℤ) := by
    intro hk c hc
    have hideal : (k : ℚ) * ((cellSize c : ℚ) / (K : ℚ)) ≤ ((cellSize c : ℤ) : ℚ) := by
      rw [show (k : ℚ) * ((cellSize c : ℚ) / (K : ℚ))
          = ((k : ℚ) * (cellSize c : ℚ)) / (K : ℚ) from by ring]
      rw [div_le_iff₀ hKq]
      push_cast
      have hkK : (k : ℚ) ≤ (K : ℚ) := by
        rw [hK]; exact_mod_cast hk
      nlinarith [Nat.cast_nonneg (α := ℚ) (cellSize c)]
    exact lrm_quota_le k _ hnd' hsum' (c.id, (k : ℚ) * ((cellSize c : ℚ) / (K : ℚ)))
      (List.mem_map_of_mem _ hc) (cellSize c : ℤ) hideal
  have hquota_ge_sz : (CL.map cellSize).sum ≤ k → ∀ c ∈ CL,
      (cellSize c : ℤ) ≤
        lrm_quota k (CL.map (fun c => (c.id, (k : ℚ) * ((cellSize c : ℚ) / (K : ℚ)))))
          (c.id, (k : ℚ) * ((cellSize c : ℚ) / (K : ℚ))) := by
    intro hk c hc
    have hideal : ((cellSize c : ℤ) : ℚ) ≤ (k : ℚ) * ((cellSize c : ℚ) / (K : ℚ)) := by
      rw [show (k : ℚ) * ((cellSize c : ℚ) / (K : ℚ))
          = ((k : ℚ) * (cellSize c : ℚ)) / (K : ℚ) from by ring]
      rw [le_div_iff₀ hKq]
      push_cast
      have hkK : (K : ℚ) ≤ (k : ℚ) := by
        rw [hK]; exact_mod_cast hk
      nlinarith [Nat.cast_nonneg (α := ℚ) (cellSize c)]
    exact lrm_quota_ge k _ (c.id, (k : ℚ) * ((cellSize c : ℚ) / (K : ℚ)))
      (cellSize c : ℤ) hideal
  have hquota_nonneg : ∀ c ∈ CL,
      0 ≤ lrm_quota k (CL.map (fun c => (c.id, (k : ℚ) * ((cellSize c : ℚ) / (K : ℚ)))))
        (c.id, (k : ℚ) * ((cellSize c : ℚ) / (K : ℚ))) := by
    intro c hc
    have h1 : ((0 : ℤ) : ℚ) ≤ (k : ℚ) * ((cellSize c : ℚ) / (K : ℚ)) := by positivity
    exact lrm_quota_ge k _ (c.id, (k : ℚ) * ((cellSize c : ℚ) / (K : ℚ))) 0 h1
  constructor
  · rw [zip_min_sum _ CL _ hq]
    by_cases hk : k ≤ (CL.map cellSize).sum
    · rw [List.map_congr_left (fun c hc => min_eq_left (hquota_le_sz hk c hc))]
      rw [hqsum]
      exact (min_eq_left (by exact_mod_cast hk)).symm
    · push_neg at hk
      rw [List.map_congr_left (fun c hc => min_eq_right (hquota_ge_sz (le_of_lt hk) c hc))]
      rw [cast_sum_cellSize]
      exact (min_eq_right (by exact_mod_cast (le_of_lt hk))).symm
  · intro p hp
    obtain ⟨c, hc, rfl⟩ := zip_mem_struct _ CL _ hq p hp
    exact ⟨hquota_nonneg c hc, min_le_right _ _⟩

theorem grid_weighted_alloc_props (k : ℕ) (CL : List Cell)
    (hnd : (CL.map Cell.id).Nodup)
    (hsz : ∀ c ∈ CL, cellSize c ≠ 0) :
    ∀ q, grid_weighted_alloc k CL = some q →
      (q.map Prod.snd).sum = (k : ℤ)
      ∧ ((∀ c ∈ CL, ∀ pl ∈ c.places, 0 ≤ pl.rF) →
          ((q.zip CL).map (fun p => min p.1.2 (cellSize p.2 : ℤ))).sum
            ≤ min (k : ℤ) (((CL.map cellSize).sum : ℕ) : ℤ)
          ∧ ∀ p ∈ q.zip CL,
              0 ≤ p.1.2 ∧ min p.1.2 (cellSize p.2 : ℤ) ≤ (cellSize p.2 : ℤ)) := by
  intro q hq0
  have hfilt : CL.filter (fun c => cellSize c ≠ 0) = CL :=
    List.filter_eq_self.mpr (fun a ha => by simpa using hsz a ha)
  rw [grid_weighted_alloc, hfilt] at hq0
  by_cases htot : ((CL.map (fun c => (c.id, (cellSize c : ℚ) * (c.places.map Place.rF).sum))).map
      Prod.snd).sum = 0
  · rw [if_pos htot] at hq0
    cases hq0
  · rw [if_neg htot] at hq0
    rw [Option.some.injEq] at hq0
    subst hq0
    have hIdl : (CL.map (fun c => (c.id, (cellSize c : ℚ) * (c.places.map Place.rF).sum))).map
        (fun s => (s.1, (k : ℚ) * (s.2 / ((CL.map (fun c =>
          (c.id, (cellSize c : ℚ) * (c.places.map Place.rF).sum))).map Prod.snd).sum)))
        = CL.map (fun c => (c.id, (k : ℚ) * (((cellSize c : ℚ) * (c.places.map Place.rF).sum)
            / ((CL.map (fun c => (c.id, (cellSize c : ℚ) * (c.places.map Place.rF).sum))).map
                Prod.snd).sum))) := by
      rw [List.map_map]
      rfl
    rw [hIdl]
    have hfst' : ((CL.map (fun c => (c.id, (k : ℚ) * (((cellSize c : ℚ) * (c.places.map Place.rF).sum)
        / ((CL.map (fun c => (c.id, (cellSize c : ℚ) * (c.places.map Place.rF).sum))).map
            Prod.snd).sum)))).map Prod.fst).Nodup := by
      rw [map_fst_map_pair]
      exact hnd
    have hTsum : ((CL.map (fun c => (c.id, (cellSize c : ℚ) * (c.places.map Place.rF).sum))).map
        Prod.snd).sum = (CL.map (fun c => (cellSize c : ℚ) * (c.places.map Place.rF).sum)).sum := by
      rw [map_snd_map_pair]
    have hsum' : ((CL.map (fun c => (c.id, (k : ℚ) * (((cellSize c : ℚ) * (c.places.map Place.rF).sum)
        / ((CL.map (fun c => (c.id, (cellSize c : ℚ) * (c.places.map Place.rF).sum))).map
            Prod.snd).sum)))).map Prod.snd).sum = (k : ℚ) := by
      rw [map_snd_map_pair]
      simp only [div_eq_mul_inv]
      rw [List.sum_map_mul_left, List.sum_map_mul_right, ← hTsum]
      rw [mul_inv_cancel₀ htot, mul_one]
    have hqW : lrm_core k (CL.map (fun c => (c.id, (k : ℚ) * (((cellSize c : ℚ) * (c.places.map Place.rF).sum)
        / ((CL.map (fun c => (c.id, (cellSize c : ℚ) * (c.places.map Place.rF).sum))).map
            Prod.snd).sum))))
        = CL.map (fun c => (c.id,
            lrm_quota k (CL.map (fun c => (c.id, (k : ℚ) * (((cellSize c : ℚ) * (c.places.map Place.rF).sum)
              / ((CL.map (fun c => (c.id, (cellSize c : ℚ) * (c.places.map Place.rF).sum))).map
                  Prod.snd).sum))))
              (c.id, (k : ℚ) * (((cellSize c : ℚ) * (c.places.map Place.rF).sum)
                / ((CL.map (fun c => (c.id, (cellSize c : ℚ) * (c.places.map Place.rF).sum))).map
                    Prod.snd).sum)))) := by
      rw [lrm_core, List.map_map]
      rfl
    have hqsum : ((lrm_core k (CL.map (fun c => (c.id, (k : ℚ) * (((cellSize c : ℚ) * (c.places.map Place.rF).sum)
        / ((CL.map (fun c => (c.id, (cellSize c : ℚ) * (c.places.map Place.rF).sum))).map
            Prod.snd).sum))))).map Prod.snd).sum = (k : ℤ) :=
      lrm_core_sum k _ hfst' hsum'
    refine ⟨hqsum, ?_⟩
    intro hw
    have hTnn : (0 : ℚ) ≤ ((CL.map (fun c => (c.id, (cellSize c : ℚ) * (c.places.map Place.rF).sum))).map
        Prod.snd).sum := by
      rw [hTsum]
      apply List.sum_nonneg
      intro x hx
      rw [List.mem_map] at hx
      obtain ⟨c, hc, rfl⟩ := hx
      apply mul_nonneg (by positivity)
      apply List.sum_nonneg
      intro w hww
      rw [List.mem_map] at hww
      obtain ⟨pl, hpl, rfl⟩ := hww
      exact hw c hc pl hpl
    have hidl_nn : ∀ c ∈ CL, ((0 : ℤ) : ℚ) ≤ (k : ℚ) * (((cellSize c : ℚ) * (c.places.map Place.rF).sum)
        / ((CL.map (fun c => (c.id, (cellSize c : ℚ) * (c.places.map Place.rF).sum))).map
            Prod.snd).sum) := by
      intro c hc
      push_cast
      apply mul_nonneg (by positivity)
      apply div_nonneg _ hTnn
      apply mul_nonneg (by positivity)
      apply List.sum_nonneg
      intro w hww
      rw [List.mem_map] at hww
      obtain ⟨pl, hpl, rfl⟩ := hww
      exact hw c hc pl hpl
    have hquota_nn : ∀ c ∈ CL, 0 ≤
        lrm_quota k (CL.map (fun c => (c.id, (k : ℚ) * (((cellSize c : ℚ) * (c.places.map Place.rF).sum)
          / ((CL.map (fun c => (c.id, (cellSize c : ℚ) * (c.places.map Place.rF).sum))).map
              Prod.snd).sum))))
          (c.id, (k : ℚ) * (((cellSize c : ℚ) * (c.places.map Place.rF).sum)
            / ((CL.map (fun c => (c.id, (cellSize c : ℚ) * (c.places.map Place.rF).sum))).map
                Prod.snd).sum)) := by
      intro c hc
      exact lrm_quota_ge k _ _ 0 (hidl_nn c hc)
    constructor
    · apply le_min
      · calc (((lrm_core k (CL.map (fun c => (c.id, (k : ℚ) * (((cellSize c : ℚ) * (c.places.map Place.rF).sum)
              / ((CL.map (fun c => (c.id, (cellSize c : ℚ) * (c.places.map Place.rF).sum))).map
                  Prod.snd).sum))))).zip CL).map
            (fun p => min p.1.2 (cellSize p.2 : ℤ))).sum
            ≤ (CL.map (fun c =>
                lrm_quota k (CL.map (fun c => (c.id, (k : ℚ) * (((cellSize c : ℚ) * (c.places.map Place.rF).sum)
                  / ((CL.map (fun c => (c.id, (cellSize c : ℚ) * (c.places.map Place.rF).sum))).map
                      Prod.snd).sum))))
                  (c.id, (k : ℚ) * (((cellSize c : ℚ) * (c.places.map Place.rF).sum)
                    / ((CL.map (fun c => (c.id, (cellSize c : ℚ) * (c.places.map Place.rF).sum))).map
                        Prod.snd).sum)))).sum := by
              rw [zip_min_sum _ CL _ hqW]
              apply List.sum_le_sum
              intro c hc
              exact min_le_left _ _
          _ = (k : ℤ) := by
              rw [← map_snd_map_pair CL Cell.id, ← hqW]
              exact hqsum
      · calc (((lrm_core k (CL.map (fun c => (c.id, (k : ℚ) * (((cellSize c : ℚ) * (c.places.map Place.rF).sum)
              / ((CL.map (fun c => (c.id, (cellSize c : ℚ) * (c.places.map Place.rF).sum))).map
                  Prod.snd).sum))))).zip CL).map
            (fun p => min p.1.2 (cellSize p.2 : ℤ))).sum
            ≤ (CL.map (fun c => (cellSize c : ℤ))).sum := by
              rw [zip_min_sum _ CL _ hqW]
              apply List.sum_le_sum
              intro c hc
              exact min_le_right _ _
          _ = (((CL.map cellSize).sum : ℕ) : ℤ) := cast_sum_cellSize CL
    · intro p hp
      obtain ⟨c, hc, rfl⟩ := zip_mem_struct _ CL _ hqW p hp
      exact ⟨hquota_nn c hc, min_le_right _ _⟩

/-- C2 counterexample: `grid_weighted_sampling` with two singleton cells
of weights 3 and 1 and budget `k = 2` allocates both units to the first
cell (ideal 1.5, largest remainder) and none to the second, so after
clamping only 1 point is drawn although `min(k, Σ cellSize) = 2`; the
quota sum guarantee of the claim fails for the weighted sampler. -/
theorem C2_counterexample_weighted_quota_sum :
    grid_weighted_alloc 2 [⟨(0, 0), [⟨0, 3⟩]⟩, ⟨(0, 1), [⟨1, 1⟩]⟩]
      = some [((0, 0), 2), ((0, 1), 0)]
    ∧ (([((0, 0), (2 : ℤ)), ((0, 1), 0)].zip [⟨(0, 0), [⟨0, 3⟩]⟩, ⟨(0, 1), [⟨1, 1⟩]⟩]).map
        (fun p => min p.1.2 (cellSize p.2 : ℤ))).sum = 1
    ∧ min (2 : ℤ) ((([⟨(0, 0), [⟨0, 3⟩]⟩, ⟨(0, 1), [⟨1, 1⟩]⟩] : List Cell).map cellSize).sum : ℤ)
        = 2 := by
  refine ⟨?_, by decide, by decide⟩
  norm_num [grid_weighted_alloc, lrm_core, lrm_quota, lrm_bumped, lrm_remainders,
    lrm_kRem, remGe, cellSize, List.insertionSort, List.orderedInsert]

/-- C2 amended.  For `grid_sampling` (cell scores are population counts)
the clamped quotas sum to exactly `min(k, Σ cellSize)`, no quota is
negative, and no clamped quota exceeds its cell's size.  For
`grid_weighted_sampling` the raw quotas always sum to `k` (whenever the
degenerate all-zero-score guard passes), and under nonnegative weights
the quotas are nonnegative, clamped quotas never exceed cell sizes, and
the clamped sum is at most `min(k, Σ cellSize)` — equality can fail, as
weight-proportional ideals may exceed cell sizes (see the
counterexample). -/
theorem C2_amended_budget_allocation (k : ℕ) (CL : List Cell)
    (hnd : (CL.map Cell.id).Nodup) (hCL : CL ≠ [])
    (hsz : ∀ c ∈ CL, cellSize c ≠ 0) :
    (∀ K : ℕ, K = (CL.map cellSize).sum →
      (((grid_alloc k K CL).zip CL).map (fun p => min p.1.2 (cellSize p.2 : ℤ))).sum
        = min (k : ℤ) (((CL.map cellSize).sum : ℕ) : ℤ)
      ∧ ∀ p ∈ (grid_alloc k K CL).zip CL,
          0 ≤ p.1.2 ∧ min p.1.2 (cellSize p.2 : ℤ) ≤ (cellSize p.2 : ℤ))
    ∧ (∀ q, grid_weighted_alloc k CL = some q →
        (q.map Prod.snd).sum = (k : ℤ)
        ∧ ((∀ c ∈ CL, ∀ pl ∈ c.places, 0 ≤ pl.rF) →
            ((q.zip CL).map (fun p => min p.1.2 (cellSize p.2 : ℤ))).sum
              ≤ min (k : ℤ) (((CL.map cellSize).sum : ℕ) : ℤ)
            ∧ ∀ p ∈ q.zip CL,
                0 ≤ p.1.2 ∧ min p.1.2 (cellSize p.2 : ℤ) ≤ (cellSize p.2 : ℤ))) :=
  ⟨fun K hK => grid_alloc_clamped k K CL hnd hCL hsz hK,
   grid_weighted_alloc_props k CL hnd hsz⟩

/-- Witness for the C2 amended theorem: a 3-point grid with cells of
sizes 1 and 2 and budget 2 hands out exactly 2 clamped units. -/
theorem C2_amended_budget_allocation_witness :
    (((grid_alloc 2 3 [⟨(0, 0), [⟨0, 1⟩]⟩, ⟨(1, 0), [⟨1, 1⟩, ⟨2, 1⟩]⟩]).zip
        [⟨(0, 0), [⟨0, 1⟩]⟩, ⟨(1, 0), [⟨1, 1⟩, ⟨2, 1⟩]⟩]).map
      (fun p => min p.1.2 (cellSize p.2 : ℤ))).sum
      = min (2 : ℤ) (((([⟨(0, 0), [⟨0, 1⟩]⟩, ⟨(1, 0), [⟨1, 1⟩, ⟨2, 1⟩]⟩] : List Cell).map cellSize).sum : ℕ) : ℤ)
        ∧ ∀ p ∈ (grid_alloc 2 3 [⟨(0, 0), [⟨0, 1⟩]⟩, ⟨(1, 0), [⟨1, 1⟩, ⟨2, 1⟩]⟩]).zip
            [⟨(0, 0), [⟨0, 1⟩]⟩, ⟨(1, 0), [⟨1, 1⟩, ⟨2, 1⟩]⟩],
          0 ≤ p.1.2 ∧ min p.1.2 (cellSize p.2 : ℤ) ≤ (cellSize p.2 : ℤ) :=
  (C2_amended_budget_allocation 2 [⟨(0, 0), [⟨0, 1⟩]⟩, ⟨(1, 0), [⟨1, 1⟩, ⟨2, 1⟩]⟩]
    (by decide) (by decide) (by decide)).1 3 (by decide)

/-- The sort relation lifted to index-tagged remainder entries. -/
def remGeIdx {α : Type} (a b : ℕ × (α × ℚ)) : Prop := remGe a.2 b.2

instance {α : Type} : DecidableRel (remGeIdx (α := α)) :=
  fun a b => inferInstanceAs (Decidable (b.2.2 ≤ a.2.2))

/-- Strict lexicographic order on index-tagged remainder entries:
larger remainder first, ties broken by smaller (earlier) input index.  A
list that is pairwise in this order is the unique stable descending
arrangement of its entries. -/
def lexRem {α : Type} (a b : ℕ × (α × ℚ)) : Prop :=
  b.2.2 < a.2.2 ∨ (a.2.2 = b.2.2 ∧ a.1 < b.1)

theorem orderedInsert_lex {α : Type} (x : ℕ × (α × ℚ)) :
    ∀ (s : List (ℕ × (α × ℚ))), s.Pairwise lexRem → (∀ y ∈ s, x.1 < y.1) →
      (s.orderedInsert remGeIdx x).Pairwise lexRem := by
  intro s
  induction s with
  | nil => intro _ _; simp [List.orderedInsert]
  | cons b s' ih =>
    intro hs hx
    by_cases hr : remGeIdx x b
    · simp only [List.orderedInsert]
      rw [if_pos hr]
      refine List.Pairwise.cons ?_ hs
      intro y hy
      rcases List.mem_cons.mp hy with rfl | hy'
      · by_cases hlt : y.2.2 < x.2.2
        · exact Or.inl hlt
        · exact Or.inr ⟨le_antisymm (not_lt.mp hlt) hr, hx y (List.mem_cons_self _ _)⟩
      · have hby := List.rel_of_pairwise_cons hs hy'
        rcases hby with hby | hby
        · exact Or.inl (lt_of_lt_of_le hby hr)
        · by_cases hlt : y.2.2 < x.2.2
          · exact Or.inl hlt
          · refine Or.inr ⟨?_, hx y (List.mem_cons_of_mem b hy')⟩
            have h1 : y.2.2 ≤ x.2.2 := hby.1 ▸ hr
            exact le_antisymm (not_lt.mp hlt) h1
    · simp only [List.orderedInsert]
      rw [if_neg hr]
      refine List.Pairwise.cons ?_ (ih hs.of_cons fun y hy => hx y (List.mem_cons_of_mem b hy))
      intro y hy
      rcases (List.mem_orderedInsert remGeIdx).mp hy with rfl | hy'
      · exact Or.inl (not_le.mp hr)
      · exact List.rel_of_pairwise_cons hs hy'

theorem enumFrom_pairwise_fst {β : Type} :
    ∀ (l : List β) (n : ℕ), (List.enumFrom n l).Pairwise (fun a b => a.1 < b.1) := by
  intro l
  induction l with
  | nil => intro n; simp
  | cons a t ih =>
    intro n
    rw [List.enumFrom_cons]
    refine List.Pairwise.cons ?_ (ih (n + 1))
    intro y hy
    obtain ⟨i, b⟩ := y
    have := (List.mem_enumFrom hy).1
    omega

theorem insertionSort_lex {α : Type} :
    ∀ (l : List (ℕ × (α × ℚ))), l.Pairwise (fun a b => a.1 < b.1) →
      (l.insertionSort remGeIdx).Pairwise lexRem := by
  intro l
  induction l with
  | nil => intro _; simp
  | cons x t ih =>
    intro hidx
    simp only [List.insertionSort]
    refine orderedInsert_lex x _ (ih hidx.of_cons) ?_
    intro y hy
    have hmem : y ∈ t := (List.perm_insertionSort remGeIdx t).subset hy
    exact List.rel_of_pairwise_cons hidx hmem

theorem orderedInsert_strip {α : Type} (x : ℕ × (α × ℚ)) :
    ∀ (s : List (ℕ × (α × ℚ))),
      (s.orderedInsert remGeIdx x).map Prod.snd
        = (s.map Prod.snd).orderedInsert remGe x.2 := by
  intro s
  induction s with
  | nil => rfl
  | cons b s' ih =>
    by_cases h : remGe x.2 b.2
    · simp only [List.orderedInsert, List.map_cons]
      rw [if_pos (show remGeIdx x b from h), if_pos h]
      rfl
    · simp only [List.orderedInsert, List.map_cons]
      rw [if_neg (show ¬remGeIdx x b from h), if_neg h, ← ih]
      rfl

theorem insertionSort_strip {α : Type} :
    ∀ (l : List (ℕ × (α × ℚ))),
      (l.insertionSort remGeIdx).map Prod.snd
        = (l.map Prod.snd).insertionSort remGe := by
  intro l
  induction l with
  | nil => rfl
  | cons x t ih =>
    simp only [List.insertionSort, List.map_cons]
    rw [orderedInsert_strip, ih]

/-- C4.  The proportional allocation of both grid samplers (their shared
core `lrm_core`, to which `grid_alloc` and `grid_weighted_alloc` reduce
by definition) starts each quota at `⌊ideal_i⌋` and then distributes the
remaining budget `k - Σ⌊ideal_i⌋` one unit each to the cells with the
largest fractional remainders, ties broken by input order: the bumped
cells are exactly the first `k_remaining` entries of the (unique)
index-tagged arrangement of the remainders that is strictly descending
lexicographically in (remainder, earliest input position). -/
theorem C4_largest_remainder_allocation {α : Type} [DecidableEq α] (k : ℕ)
    (ideals : List (α × ℚ))
    (hsum : (ideals.map Prod.snd).sum = (k : ℚ)) :
    ∃ s : List (ℕ × (α × ℚ)),
      s.Perm (lrm_remainders ideals).enum
      ∧ s.Pairwise lexRem
      ∧ lrm_core k ideals = ideals.map (fun c =>
          (c.1, ⌊c.2⌋ + if c.1 ∈ (s.take (lrm_kRem k ideals).toNat).map (fun e => e.2.1)
            then 1 else 0)) := by
  refine ⟨(lrm_remainders ideals).enum.insertionSort remGeIdx,
    List.perm_insertionSort _ _,
    insertionSort_lex _ (enumFrom_pairwise_fst (lrm_remainders ideals) 0), ?_⟩
  have hstrip : (((lrm_remainders ideals).enum.insertionSort remGeIdx).map Prod.snd)
      = (lrm_remainders ideals).insertionSort remGe := by
    rw [insertionSort_strip, List.enum_map_snd]
  have hlen1 : ((lrm_remainders ideals).insertionSort remGe).length = ideals.length := by
    rw [(List.perm_insertionSort _ _).length_eq, lrm_remainders_length]
  have hB : ((((lrm_remainders ideals).enum.insertionSort remGeIdx).take
      (lrm_kRem k ideals).toNat).map (fun e => e.2.1)) = lrm_bumped k ideals := by
    have h2 : ((((lrm_remainders ideals).enum.insertionSort remGeIdx).take
        (lrm_kRem k ideals).toNat).map (fun e => e.2.1))
        = ((((lrm_remainders ideals).insertionSort remGe).take
            (lrm_kRem k ideals).toNat).map Prod.fst) := by
      calc ((((lrm_remainders ideals).enum.insertionSort remGeIdx).take
            (lrm_kRem k ideals).toNat).map (fun e => e.2.1))
          = (((((lrm_remainders ideals).enum.insertionSort remGeIdx).take
              (lrm_kRem k ideals).toNat).map Prod.snd).map Prod.fst) := by
            rw [List.map_map]
            rfl
        _ = (((((lrm_remainders ideals).enum.insertionSort remGeIdx).map Prod.snd).take
              (lrm_kRem k ideals).toNat).map Prod.fst) := by
            rw [List.map_take]
        _ = ((((lrm_remainders ideals).insertionSort remGe).take
              (lrm_kRem k ideals).toNat).map Prod.fst) := by
            rw [hstrip]
    rw [h2]
    simp only [lrm_bumped]
    rw [hlen1, min_eq_left (lrm_kRem_le_length k ideals hsum)]
  rw [hB]
  rfl

/-- Witness for C4 at ideals `3/2` and `1/2` with `k = 2`. -/
theorem C4_largest_remainder_allocation_witness :
    ∃ s : List (ℕ × (ℕ × ℚ)),
      s.Perm (lrm_remainders [((0 : ℕ), (3 : ℚ)/2), (1, 1/2)]).enum
      ∧ s.Pairwise lexRem
      ∧ lrm_core 2 [((0 : ℕ), (3 : ℚ)/2), (1, 1/2)]
          = [((0 : ℕ), (3 : ℚ)/2), (1, 1/2)].map (fun c =>
              (c.1, ⌊c.2⌋ + if c.1 ∈
                  (s.take (lrm_kRem 2 [((0 : ℕ), (3 : ℚ)/2), (1, 1/2)]).toNat).map
                    (fun e => e.2.1)
                then 1 else 0)) :=
  C4_largest_remainder_allocation 2 [((0 : ℕ), (3 : ℚ)/2), (1, 1/2)] (by norm_num)

end RSO
